import Mathlib

/-!
Verification of the acceptance-region builder (`fisher.py`) and the
chi-square variants (`chisq.py`) of this repository, over a shallow
embedding in Lean 4.  Probabilities are modelled as exact rationals
(the hypergeometric point masses are rational numbers); Python runtime
failures (IndexError, ValueError, ZeroDivisionError, AssertionError)
are modelled by an explicit error type.
-/

namespace Spec2Proof

/- Batteries marks the `Rat` field operations `@[irreducible]`; restore the
default reducibility locally so that concrete runs can be evaluated by
`decide`. -/
attribute [local semireducible] Rat.add Rat.sub Rat.mul Rat.inv

/-- Failure modes of the embedded Python code.  `fuelOut` is an artifact
of the fuel-based loop encoding; `fisherRun` supplies fuel `n + 2`, which
`fisherLoop_inv` shows is never exhausted on valid inputs (every successful
iteration strictly shrinks `posout`). -/
inductive PyErr where
  | indexError
  | valueError
  | zeroDivisionError
  | assertionError
  | fuelOut
deriving DecidableEq, Repr

instance {ε α : Type} [DecidableEq ε] [DecidableEq α] : DecidableEq (Except ε α) := fun a b =>
  match a, b with
  | Except.error x, Except.error y =>
    if h : x = y then isTrue (congrArg Except.error h)
    else isFalse (fun hc => h (Except.error.inj hc))
  | Except.error _, Except.ok _ => isFalse (fun hc => Except.noConfusion hc)
  | Except.ok _, Except.error _ => isFalse (fun hc => Except.noConfusion hc)
  | Except.ok x, Except.ok y =>
    if h : x = y then isTrue (congrArg Except.ok h)
    else isFalse (fun hc => h (Except.ok.inj hc))

/-- Hypergeometric point mass P(X = k) for population `N`, `G` good items,
sample size `n`: C(G,k) C(N-G,n-k) / C(N,n), as an exact rational.
Embeds the external `scipy.stats.hypergeom.pmf` used by `fisher.py`. -/
def hypergeom_pmf (N G n k : ℕ) : ℚ :=
  ((Nat.choose G k : ℚ) * (Nat.choose (N - G) (n - k) : ℚ)) / (Nat.choose N n : ℚ)

/-- The precomputed pmf vector `pmf = hypergeom.pmf(x, N, G, n)` over
`x = np.arange(0, n+1)`. -/
def pmfList (N G n : ℕ) : List ℚ :=
  (List.range (n + 1)).map (hypergeom_pmf N G n)

/-- Numpy-style vector indexing with an `int` index: in-range indices are
read directly, negative indices in `[-len, 0)` wrap around, and anything
else raises `IndexError`. -/
def npGet (xs : List ℚ) (i : ℤ) : Except PyErr ℚ :=
  if 0 ≤ i ∧ i < (xs.length : ℤ) then Except.ok (xs.getD i.toNat 0)
  else if -(xs.length : ℤ) ≤ i ∧ i < 0 then Except.ok (xs.getD (i + xs.length).toNat 0)
  else Except.error PyErr.indexError

/-- Python `list.remove`: removes the first occurrence of `j`, raising
`ValueError` when `j` is absent. -/
def removeFirst (xs : List ℤ) (j : ℤ) : Except PyErr (List ℤ) :=
  match xs with
  | [] => Except.error PyErr.valueError
  | a :: rest =>
    if a = j then Except.ok rest
    else
      match removeFirst rest j with
      | Except.error e => Except.error e
      | Except.ok r => Except.ok (a :: r)

/-- The mutable running state of `fisher_accept`'s removal loop:
`posout` (remaining acceptable outcomes), `bottom`, `top`, the boundary
set `J`, its mass `p_J`, and the cumulative removed mass `p_tail`. -/
structure FState where
  posout : List ℤ
  bottom : ℤ
  top : ℤ
  J : List ℤ
  p_J : ℚ
  p_tail : ℚ
deriving DecidableEq, Repr

/-- One iteration of the removal loop of `fisher_accept` (lines 52-76 of
`fisher.py`): read `pb = pmf[bottom]` and `pt = pmf[top]`, apply the
tie-break policy to pick `J` and `p_J`, add `p_J` to `p_tail`, and remove
the members of `J` from `posout`. -/
def fisherStep (pmf : List ℚ) (s : FState) : Except PyErr FState :=
  match npGet pmf s.bottom with
  | Except.error e => Except.error e
  | Except.ok pb =>
    match npGet pmf s.top with
    | Except.error e => Except.error e
    | Except.ok pt =>
      if pb < pt then
        match removeFirst s.posout s.bottom with
        | Except.error e => Except.error e
        | Except.ok posout2 =>
          Except.ok ⟨posout2, s.bottom + 1, s.top, [s.bottom], pb, s.p_tail + pb⟩
      else if pb > pt then
        match removeFirst s.posout s.top with
        | Except.error e => Except.error e
        | Except.ok posout2 =>
          Except.ok ⟨posout2, s.bottom, s.top - 1, [s.top], pt, s.p_tail + pt⟩
      else if s.bottom < s.top then
        match removeFirst s.posout s.bottom with
        | Except.error e => Except.error e
        | Except.ok posout1 =>
          match removeFirst posout1 s.top with
          | Except.error e => Except.error e
          | Except.ok posout2 =>
            Except.ok ⟨posout2, s.bottom + 1, s.top - 1, [s.bottom, s.top],
              pb + pt, s.p_tail + (pb + pt)⟩
      else
        match removeFirst s.posout s.bottom with
        | Except.error e => Except.error e
        | Except.ok posout2 =>
          Except.ok ⟨posout2, s.bottom + 1, s.top, [s.bottom], pb, s.p_tail + pb⟩

/-- The `while p_tail < alpha` loop of `fisher_accept`, with explicit fuel
and an iteration counter. -/
def fisherLoop (pmf : List ℚ) (alpha : ℚ) : ℕ → FState → ℕ → Except PyErr (FState × ℕ)
  | 0, _, _ => Except.error PyErr.fuelOut
  | fuel + 1, s, count =>
    if s.p_tail < alpha then
      match fisherStep pmf s with
      | Except.error e => Except.error e
      | Except.ok s2 => fisherLoop pmf alpha fuel s2 (count + 1)
    else Except.ok (s, count)

/-- The initial loop state of `fisher_accept`: `posout = list(x)` for
`x = np.arange(0, n+1)`, `bottom = 0`, `top = n`, `J = []`, `p_J = 0`,
`p_tail = 0`. -/
def initState (n : ℕ) : FState :=
  ⟨(List.range (n + 1)).map Int.ofNat, 0, n, [], 0, 0⟩

/-- Run the removal loop of `fisher_accept` from the initial state,
returning the final state and the number of iterations.  The fuel `n + 2`
is sufficient: each successful iteration removes at least one element of
`posout`, which starts with `n + 1` elements. -/
def fisherRun (N G n : ℕ) (alpha : ℚ) : Except PyErr (FState × ℕ) :=
  fisherLoop (pmfList N G n) alpha (n + 2) (initState n) 0

/-- `fisher_accept(N, G, n, alpha)` of `fisher.py`: run the removal loop,
then return `(posout, J, gamma)` with `gamma = (p_tail - alpha)/p_J`.
A zero `p_J` at the division (possible only when the loop runs zero
iterations, where `p_J` is still the Python int `0`) raises
`ZeroDivisionError`. -/
def fisher_accept (N G n : ℕ) (alpha : ℚ) : Except PyErr (List ℤ × List ℤ × ℚ) :=
  match fisherRun N G n alpha with
  | Except.error e => Except.error e
  | Except.ok (s, _) =>
    if s.p_J = 0 then Except.error PyErr.zeroDivisionError
    else Except.ok (s.posout, s.J, (s.p_tail - alpha) / s.p_J)

/-- `fisher_accept2(N, G, n, alpha)` of `fisher.py`: `assert N > n` and
`assert N > G`, then the body of `fisher_accept` verbatim. -/
def fisher_accept2 (N G n : ℕ) (alpha : ℚ) : Except PyErr (List ℤ × List ℤ × ℚ) :=
  if N > n then
    if N > G then
      match fisherRun N G n alpha with
      | Except.error e => Except.error e
      | Except.ok (s, _) =>
        if s.p_J = 0 then Except.error PyErr.zeroDivisionError
        else Except.ok (s.posout, s.J, (s.p_tail - alpha) / s.p_J)
    else Except.error PyErr.assertionError
  else Except.error PyErr.assertionError

/-! ### Basic lemmas about the embedded list operations -/

theorem removeFirst_cons_self (a : ℤ) (xs : List ℤ) :
    removeFirst (a :: xs) a = Except.ok xs := by
  simp [removeFirst]

theorem removeFirst_append_notMem (xs : List ℤ) (a : ℤ) (h : a ∉ xs) :
    removeFirst (xs ++ [a]) a = Except.ok xs := by
  induction xs with
  | nil => simp [removeFirst]
  | cons x rest ih =>
    have hxa : ¬(x = a) := by
      intro hx
      exact h (hx ▸ List.mem_cons_self x rest)
    have hrest : a ∉ rest := fun hm => h (List.mem_cons_of_mem _ hm)
    simp [removeFirst, hxa, ih hrest]

theorem removeFirst_subset {xs ys : List ℤ} {j : ℤ}
    (h : removeFirst xs j = Except.ok ys) : ys ⊆ xs := by
  induction xs generalizing ys with
  | nil => simp [removeFirst] at h
  | cons x rest ih =>
    rw [removeFirst] at h
    by_cases hx : x = j
    · rw [if_pos hx] at h
      cases h
      exact List.subset_cons_self x rest
    · rw [if_neg hx] at h
      cases hr : removeFirst rest j with
      | error e => rw [hr] at h; cases h
      | ok r =>
        rw [hr] at h
        cases h
        exact List.cons_subset_cons x (ih hr)

theorem removeFirst_length {xs ys : List ℤ} {j : ℤ}
    (h : removeFirst xs j = Except.ok ys) : ys.length + 1 = xs.length := by
  induction xs generalizing ys with
  | nil => simp [removeFirst] at h
  | cons x rest ih =>
    rw [removeFirst] at h
    by_cases hx : x = j
    · rw [if_pos hx] at h
      cases h
      simp
    · rw [if_neg hx] at h
      cases hr : removeFirst rest j with
      | error e => rw [hr] at h; cases h
      | ok r =>
        rw [hr] at h
        cases h
        simp [← ih hr]

/-! ### Integer ranges: the remaining acceptance set is always `[bottom..top]` -/

/-- The list of integers `b, b+1, ..., t` (empty when `t < b`). -/
def intRange (b t : ℤ) : List ℤ :=
  (List.range (t + 1 - b).toNat).map (fun i : ℕ => b + (i : ℤ))

theorem intRange_nil {b t : ℤ} (h : t < b) : intRange b t = [] := by
  have h0 : (t + 1 - b).toNat = 0 := by omega
  simp [intRange, h0]

theorem intRange_cons {b t : ℤ} (h : b ≤ t) :
    intRange b t = b :: intRange (b + 1) t := by
  unfold intRange
  have h1 : (t + 1 - b).toNat = (t + 1 - (b + 1)).toNat + 1 := by omega
  rw [h1, List.range_succ_eq_map, List.map_cons, List.map_map]
  refine congrArg₂ _ (by omega) (List.map_congr_left fun i _ => ?_)
  simp [Function.comp]
  omega

theorem intRange_concat {b t : ℤ} (h : b ≤ t) :
    intRange b t = intRange b (t - 1) ++ [t] := by
  unfold intRange
  have h1 : (t + 1 - b).toNat = (t - 1 + 1 - b).toNat + 1 := by omega
  rw [h1, List.range_succ, List.map_append]
  refine congrArg₂ _ rfl ?_
  simp
  omega

theorem mem_intRange {v b t : ℤ} : v ∈ intRange b t ↔ b ≤ v ∧ v ≤ t := by
  unfold intRange
  simp only [List.mem_map, List.mem_range]
  constructor
  · rintro ⟨i, hi, rfl⟩
    omega
  · rintro ⟨h1, h2⟩
    exact ⟨(v - b).toNat, by omega, by omega⟩

theorem intRange_length (b t : ℤ) : (intRange b t).length = (t + 1 - b).toNat := by
  simp [intRange]

theorem initState_posout (n : ℕ) :
    (List.range (n + 1)).map Int.ofNat = intRange 0 (n : ℤ) := by
  unfold intRange
  have h1 : ((n : ℤ) + 1 - 0).toNat = n + 1 := by omega
  rw [h1]
  refine List.map_congr_left fun i _ => ?_
  rw [Int.ofNat_eq_natCast]
  omega

/-! ### Weighted sums of point masses over outcome lists -/

/-- Sum of `f` over a list of outcomes. -/
def wsum (f : ℤ → ℚ) (l : List ℤ) : ℚ := (l.map f).sum

@[simp] theorem wsum_nil (f : ℤ → ℚ) : wsum f [] = 0 := rfl

@[simp] theorem wsum_cons (f : ℤ → ℚ) (a : ℤ) (l : List ℤ) :
    wsum f (a :: l) = f a + wsum f l := by simp [wsum]

theorem wsum_append (f : ℤ → ℚ) (l1 l2 : List ℤ) :
    wsum f (l1 ++ l2) = wsum f l1 + wsum f l2 := by simp [wsum]

/-- The pmf vector value at integer index `j` (meaningful for `0 ≤ j < length`). -/
def pAt (xs : List ℚ) (j : ℤ) : ℚ := xs.getD j.toNat 0

theorem npGet_in {xs : List ℚ} {i : ℤ} (h0 : 0 ≤ i) (h1 : i < (xs.length : ℤ)) :
    npGet xs i = Except.ok (pAt xs i) := by
  unfold npGet pAt
  rw [if_pos ⟨h0, h1⟩]

/-! ### Characterization of one loop iteration -/

theorem fisherStep_cases {pmf : List ℚ} {s s2 : FState}
    (h : fisherStep pmf s = Except.ok s2) :
    ∃ pb pt, npGet pmf s.bottom = Except.ok pb ∧ npGet pmf s.top = Except.ok pt ∧
      ((pb < pt ∧ removeFirst s.posout s.bottom = Except.ok s2.posout ∧
          s2.bottom = s.bottom + 1 ∧ s2.top = s.top ∧ s2.J = [s.bottom] ∧
          s2.p_J = pb ∧ s2.p_tail = s.p_tail + pb) ∨
       (pt < pb ∧ removeFirst s.posout s.top = Except.ok s2.posout ∧
          s2.bottom = s.bottom ∧ s2.top = s.top - 1 ∧ s2.J = [s.top] ∧
          s2.p_J = pt ∧ s2.p_tail = s.p_tail + pt) ∨
       (pb = pt ∧ s.bottom < s.top ∧
          (∃ mid, removeFirst s.posout s.bottom = Except.ok mid ∧
            removeFirst mid s.top = Except.ok s2.posout) ∧
          s2.bottom = s.bottom + 1 ∧ s2.top = s.top - 1 ∧ s2.J = [s.bottom, s.top] ∧
          s2.p_J = pb + pt ∧ s2.p_tail = s.p_tail + (pb + pt)) ∨
       (pb = pt ∧ ¬s.bottom < s.top ∧ removeFirst s.posout s.bottom = Except.ok s2.posout ∧
          s2.bottom = s.bottom + 1 ∧ s2.top = s.top ∧ s2.J = [s.bottom] ∧
          s2.p_J = pb ∧ s2.p_tail = s.p_tail + pb)) := by
  unfold fisherStep at h
  cases hb : npGet pmf s.bottom with
  | error e => rw [hb] at h; cases h
  | ok pb =>
  rw [hb] at h
  cases ht : npGet pmf s.top with
  | error e => rw [ht] at h; cases h
  | ok pt =>
  rw [ht] at h
  dsimp only at h
  refine ⟨pb, pt, rfl, rfl, ?_⟩
  by_cases h1 : pb < pt
  · rw [if_pos h1] at h
    cases hrf : removeFirst s.posout s.bottom with
    | error e => rw [hrf] at h; cases h
    | ok l =>
      rw [hrf] at h
      dsimp only at h
      injection h with h2
      subst h2
      exact Or.inl ⟨h1, rfl, rfl, rfl, rfl, rfl, rfl⟩
  · rw [if_neg h1] at h
    by_cases h2 : pb > pt
    · rw [if_pos h2] at h
      cases hrf : removeFirst s.posout s.top with
      | error e => rw [hrf] at h; cases h
      | ok l =>
        rw [hrf] at h
        dsimp only at h
        injection h with h3
        subst h3
        exact Or.inr (Or.inl ⟨h2, rfl, rfl, rfl, rfl, rfl, rfl⟩)
    · rw [if_neg h2] at h
      have heq : pb = pt := le_antisymm (not_lt.mp h2) (not_lt.mp h1)
      by_cases h3 : s.bottom < s.top
      · rw [if_pos h3] at h
        cases hrf : removeFirst s.posout s.bottom with
        | error e => rw [hrf] at h; cases h
        | ok mid =>
          rw [hrf] at h
          dsimp only at h
          cases hrf2 : removeFirst mid s.top with
          | error e => rw [hrf2] at h; cases h
          | ok l =>
            rw [hrf2] at h
            dsimp only at h
            injection h with h4
            subst h4
            refine Or.inr (Or.inr (Or.inl
              ⟨heq, h3, ⟨mid, rfl, ?_⟩, rfl, rfl, rfl, rfl, rfl⟩))
            exact hrf2
      · rw [if_neg h3] at h
        cases hrf : removeFirst s.posout s.bottom with
        | error e => rw [hrf] at h; cases h
        | ok l =>
          rw [hrf] at h
          dsimp only at h
          injection h with h4
          subst h4
          exact Or.inr (Or.inr (Or.inr ⟨heq, h3, rfl, rfl, rfl, rfl, rfl, rfl⟩))

theorem fisherStep_p_tail {pmf : List ℚ} {s s2 : FState}
    (h : fisherStep pmf s = Except.ok s2) : s2.p_tail = s.p_tail + s2.p_J := by
  obtain ⟨pb, pt, _, _, hc⟩ := fisherStep_cases h
  rcases hc with ⟨_, _, _, _, _, hpJ, hpt⟩ | ⟨_, _, _, _, _, hpJ, hpt⟩ |
    ⟨_, _, _, _, _, _, hpJ, hpt⟩ | ⟨_, _, _, _, _, _, hpJ, hpt⟩ <;>
    rw [hpt, hpJ]

theorem fisherStep_posout_subset {pmf : List ℚ} {s s2 : FState}
    (h : fisherStep pmf s = Except.ok s2) : s2.posout ⊆ s.posout := by
  obtain ⟨pb, pt, _, _, hc⟩ := fisherStep_cases h
  rcases hc with ⟨_, hrf, _⟩ | ⟨_, hrf, _⟩ | ⟨_, _, ⟨mid, hrf1, hrf2⟩, _⟩ | ⟨_, _, hrf, _⟩
  · exact removeFirst_subset hrf
  · exact removeFirst_subset hrf
  · exact (removeFirst_subset hrf2).trans (removeFirst_subset hrf1)
  · exact removeFirst_subset hrf

theorem fisherStep_posout_length {pmf : List ℚ} {s s2 : FState}
    (h : fisherStep pmf s = Except.ok s2) : s2.posout.length < s.posout.length := by
  obtain ⟨pb, pt, _, _, hc⟩ := fisherStep_cases h
  rcases hc with ⟨_, hrf, _⟩ | ⟨_, hrf, _⟩ | ⟨_, _, ⟨mid, hrf1, hrf2⟩, _⟩ | ⟨_, _, hrf, _⟩
  · have := removeFirst_length hrf; omega
  · have := removeFirst_length hrf; omega
  · have h1 := removeFirst_length hrf1
    have h2 := removeFirst_length hrf2
    omega
  · have := removeFirst_length hrf; omega

/-! ### Loop lemmas that need no invariant -/

theorem fisherLoop_exit {pmf : List ℚ} {alpha : ℚ} {fuel : ℕ} {s : FState} {c : ℕ}
    (h : ¬s.p_tail < alpha) : fisherLoop pmf alpha (fuel + 1) s c = Except.ok (s, c) := by
  simp [fisherLoop, h]

/-- Any normal exit of the loop has `p_tail ≥ alpha`; moreover either the loop ran
zero iterations (the state is untouched) or the last iteration started below
`alpha`, i.e. `p_tail - p_J < alpha`. -/
theorem fisherLoop_ok_cases {pmf : List ℚ} {alpha : ℚ} :
    ∀ (fuel : ℕ) (s : FState) (c : ℕ) {s2 : FState} {c2 : ℕ},
      fisherLoop pmf alpha fuel s c = Except.ok (s2, c2) →
      ¬s2.p_tail < alpha ∧ ((s2 = s ∧ c2 = c) ∨ s2.p_tail - s2.p_J < alpha)
  | 0, s, c, s2, c2 => by
    intro h
    rw [fisherLoop] at h
    cases h
  | fuel + 1, s, c, s2, c2 => by
    intro h
    rw [fisherLoop] at h
    by_cases hc : s.p_tail < alpha
    · rw [if_pos hc] at h
      cases hs : fisherStep pmf s with
      | error e => rw [hs] at h; cases h
      | ok s1 =>
        rw [hs] at h
        dsimp only at h
        have ih := fisherLoop_ok_cases fuel s1 (c + 1) h
        refine ⟨ih.1, Or.inr ?_⟩
        rcases ih.2 with ⟨rfl, rfl⟩ | h2
        · rw [fisherStep_p_tail hs]
          simpa using hc
        · exact h2
    · rw [if_neg hc] at h
      injection h with h2
      injection h2 with ha hb
      subst ha
      subst hb
      exact ⟨hc, Or.inl ⟨rfl, rfl⟩⟩

theorem fisherLoop_posout_subset {pmf : List ℚ} {alpha : ℚ} :
    ∀ (fuel : ℕ) (s : FState) (c : ℕ) {s2 : FState} {c2 : ℕ},
      fisherLoop pmf alpha fuel s c = Except.ok (s2, c2) → s2.posout ⊆ s.posout
  | 0, s, c, s2, c2 => by
    intro h
    rw [fisherLoop] at h
    cases h
  | fuel + 1, s, c, s2, c2 => by
    intro h
    rw [fisherLoop] at h
    by_cases hc : s.p_tail < alpha
    · rw [if_pos hc] at h
      cases hs : fisherStep pmf s with
      | error e => rw [hs] at h; cases h
      | ok s1 =>
        rw [hs] at h
        dsimp only at h
        exact (fisherLoop_posout_subset fuel s1 (c + 1) h).trans
          (fisherStep_posout_subset hs)
    · rw [if_neg hc] at h
      injection h with h2
      injection h2 with ha hb
      subst ha
      exact fun v hv => hv

/-- The loop trajectory does not depend on `alpha` except through the stopping
condition: a run with smaller `alpha` stops no later, so it returns a superset
of the remaining outcomes. -/
theorem fisherLoop_mono {pmf : List ℚ} {a1 a2 : ℚ} (h12 : a1 ≤ a2) :
    ∀ (fuel : ℕ) (s : FState) (c1 c2 : ℕ) {s1 : FState} {k1 : ℕ} {s2 : FState} {k2 : ℕ},
      fisherLoop pmf a1 fuel s c1 = Except.ok (s1, k1) →
      fisherLoop pmf a2 fuel s c2 = Except.ok (s2, k2) →
      s2.posout ⊆ s1.posout
  | 0, s, c1, c2, s1, k1, s2, k2 => by
    intro h1 _
    rw [fisherLoop] at h1
    cases h1
  | fuel + 1, s, c1, c2, s1, k1, s2, k2 => by
    intro h1 h2
    rw [fisherLoop] at h1 h2
    by_cases hca : s.p_tail < a1
    · have hcb : s.p_tail < a2 := lt_of_lt_of_le hca h12
      rw [if_pos hca] at h1
      rw [if_pos hcb] at h2
      cases hs : fisherStep pmf s with
      | error e => rw [hs] at h1; cases h1
      | ok s3 =>
        rw [hs] at h1 h2
        dsimp only at h1 h2
        exact fisherLoop_mono h12 fuel s3 (c1 + 1) (c2 + 1) h1 h2
    · rw [if_neg hca] at h1
      injection h1 with h1e
      injection h1e with ha hb
      subst ha
      by_cases hcb : s.p_tail < a2
      · rw [if_pos hcb] at h2
        cases hs : fisherStep pmf s with
        | error e => rw [hs] at h2; cases h2
        | ok s3 =>
          rw [hs] at h2
          dsimp only at h2
          exact (fisherLoop_posout_subset fuel s3 (c2 + 1) h2).trans
            (fisherStep_posout_subset hs)
      · rw [if_neg hcb] at h2
        injection h2 with h2e
        injection h2e with ha2 hb2
        subst ha2
        exact fun v hv => hv

/-! ### The loop invariant -/

/-- Total mass of the pmf vector. -/
def totalMass (pmf : List ℚ) : ℚ := wsum (pAt pmf) (intRange 0 ((pmf.length : ℤ) - 1))

/-- Invariant of the removal loop: the remaining acceptance candidates are
exactly the contiguous range `bottom..top`, the indices stay within the pmf
vector, and the cumulative removed mass plus the remaining mass is the total
mass. -/
structure LoopInv (pmf : List ℚ) (s : FState) : Prop where
  pos_eq : s.posout = intRange s.bottom s.top
  bot0 : 0 ≤ s.bottom
  topN : s.top < (pmf.length : ℤ)
  bt : s.bottom ≤ s.top + 1
  tail : s.p_tail + wsum (pAt pmf) s.posout = totalMass pmf

theorem initState_inv (N G n : ℕ) : LoopInv (pmfList N G n) (initState n) := by
  have hlen : (pmfList N G n).length = n + 1 := by simp [pmfList]
  refine ⟨initState_posout n, le_refl 0, ?_, ?_, ?_⟩
  · show (n : ℤ) < ((pmfList N G n).length : ℤ)
    rw [hlen]
    omega
  · show (0 : ℤ) ≤ (n : ℤ) + 1
    omega
  · show (0 : ℚ) + wsum (pAt (pmfList N G n)) (initState n).posout = _
    rw [zero_add]
    unfold totalMass
    rw [hlen]
    have : ((n + 1 : ℕ) : ℤ) - 1 = (n : ℤ) := by omega
    rw [this]
    exact congrArg _ (initState_posout n)

/-- When the invariant holds and outcomes remain, one iteration succeeds and
preserves the invariant; the new boundary mass is the mass of the new `J`. -/
theorem fisherStep_inv {pmf : List ℚ} {s : FState}
    (hInv : LoopInv pmf s) (hne : s.posout ≠ []) :
    ∃ s2, fisherStep pmf s = Except.ok s2 ∧ LoopInv pmf s2 ∧
      s2.posout.length < s.posout.length ∧
      s2.p_J = wsum (pAt pmf) s2.J ∧ s2.p_tail = s.p_tail + s2.p_J := by
  have hbt : s.bottom ≤ s.top := by
    by_contra hlt
    push_neg at hlt
    exact hne (hInv.pos_eq.trans (intRange_nil hlt))
  have h0b := hInv.bot0
  have hbN : s.bottom < (pmf.length : ℤ) := lt_of_le_of_lt hbt hInv.topN
  have h0t : 0 ≤ s.top := le_trans h0b hbt
  have hgb := npGet_in h0b hbN
  have hgt := npGet_in h0t hInv.topN
  by_cases h1 : pAt pmf s.bottom < pAt pmf s.top
  · have hstep : fisherStep pmf s = Except.ok
        ⟨intRange (s.bottom + 1) s.top, s.bottom + 1, s.top, [s.bottom],
          pAt pmf s.bottom, s.p_tail + pAt pmf s.bottom⟩ := by
      unfold fisherStep
      rw [hgb]
      dsimp only
      rw [hgt]
      dsimp only
      rw [if_pos h1, hInv.pos_eq, intRange_cons hbt, removeFirst_cons_self]
    refine ⟨_, hstep, ?_, ?_, ?_, ?_⟩
    · refine ⟨?_, ?_, ?_, ?_, ?_⟩
      · rfl
      · show (0 : ℤ) ≤ s.bottom + 1
        omega
      · exact hInv.topN
      · show s.bottom + 1 ≤ s.top + 1
        omega
      · show s.p_tail + pAt pmf s.bottom +
            wsum (pAt pmf) (intRange (s.bottom + 1) s.top) = totalMass pmf
        have htail := hInv.tail
        rw [hInv.pos_eq, intRange_cons hbt, wsum_cons] at htail
        linarith
    · show (intRange (s.bottom + 1) s.top).length < s.posout.length
      rw [hInv.pos_eq, intRange_length, intRange_length]
      omega
    · show pAt pmf s.bottom = wsum (pAt pmf) [s.bottom]
      simp [wsum]
    · rfl
  · by_cases h2 : pAt pmf s.top < pAt pmf s.bottom
    · have hnm : s.top ∉ intRange s.bottom (s.top - 1) := by
        rw [mem_intRange]
        omega
      have hstep : fisherStep pmf s = Except.ok
          ⟨intRange s.bottom (s.top - 1), s.bottom, s.top - 1, [s.top],
            pAt pmf s.top, s.p_tail + pAt pmf s.top⟩ := by
        unfold fisherStep
        rw [hgb]
        dsimp only
        rw [hgt]
        dsimp only
        rw [if_neg h1, if_pos h2, hInv.pos_eq, intRange_concat hbt,
          removeFirst_append_notMem _ _ hnm]
      refine ⟨_, hstep, ?_, ?_, ?_, ?_⟩
      · refine ⟨?_, ?_, ?_, ?_, ?_⟩
        · rfl
        · exact h0b
        · show s.top - 1 < (pmf.length : ℤ)
          have := hInv.topN
          omega
        · show s.bottom ≤ s.top - 1 + 1
          omega
        · show s.p_tail + pAt pmf s.top +
              wsum (pAt pmf) (intRange s.bottom (s.top - 1)) = totalMass pmf
          have htail := hInv.tail
          rw [hInv.pos_eq, intRange_concat hbt, wsum_append, wsum_cons, wsum_nil] at htail
          linarith
      · show (intRange s.bottom (s.top - 1)).length < s.posout.length
        rw [hInv.pos_eq, intRange_length, intRange_length]
        omega
      · show pAt pmf s.top = wsum (pAt pmf) [s.top]
        simp [wsum]
      · rfl
    · have heq : pAt pmf s.bottom = pAt pmf s.top :=
        le_antisymm (not_lt.mp h2) (not_lt.mp h1)
      by_cases h3 : s.bottom < s.top
      · have hbt2 : s.bottom + 1 ≤ s.top := h3
        have hnm : s.top ∉ intRange (s.bottom + 1) (s.top - 1) := by
          rw [mem_intRange]
          omega
        have hstep : fisherStep pmf s = Except.ok
            ⟨intRange (s.bottom + 1) (s.top - 1), s.bottom + 1, s.top - 1,
              [s.bottom, s.top], pAt pmf s.bottom + pAt pmf s.top,
              s.p_tail + (pAt pmf s.bottom + pAt pmf s.top)⟩ := by
          unfold fisherStep
          rw [hgb]
          dsimp only
          rw [hgt]
          dsimp only
          rw [if_neg h1, if_neg h2, if_pos h3, hInv.pos_eq, intRange_cons hbt,
            removeFirst_cons_self]
          dsimp only
          rw [intRange_concat hbt2, removeFirst_append_notMem _ _ hnm]
        refine ⟨_, hstep, ?_, ?_, ?_, ?_⟩
        · refine ⟨?_, ?_, ?_, ?_, ?_⟩
          · rfl
          · show (0 : ℤ) ≤ s.bottom + 1
            omega
          · show s.top - 1 < (pmf.length : ℤ)
            have := hInv.topN
            omega
          · show s.bottom + 1 ≤ s.top - 1 + 1
            omega
          · show s.p_tail + (pAt pmf s.bottom + pAt pmf s.top) +
                wsum (pAt pmf) (intRange (s.bottom + 1) (s.top - 1)) = totalMass pmf
            have htail := hInv.tail
            rw [hInv.pos_eq, intRange_cons hbt, wsum_cons, intRange_concat hbt2,
              wsum_append, wsum_cons, wsum_nil] at htail
            linarith
        · show (intRange (s.bottom + 1) (s.top - 1)).length < s.posout.length
          rw [hInv.pos_eq, intRange_length, intRange_length]
          omega
        · show pAt pmf s.bottom + pAt pmf s.top = wsum (pAt pmf) [s.bottom, s.top]
          simp [wsum]
        · rfl
      · have hstep : fisherStep pmf s = Except.ok
            ⟨intRange (s.bottom + 1) s.top, s.bottom + 1, s.top, [s.bottom],
              pAt pmf s.bottom, s.p_tail + pAt pmf s.bottom⟩ := by
          unfold fisherStep
          rw [hgb]
          dsimp only
          rw [hgt]
          dsimp only
          rw [if_neg h1, if_neg h2, if_neg h3, hInv.pos_eq, intRange_cons hbt,
            removeFirst_cons_self]
        refine ⟨_, hstep, ?_, ?_, ?_, ?_⟩
        · refine ⟨?_, ?_, ?_, ?_, ?_⟩
          · rfl
          · show (0 : ℤ) ≤ s.bottom + 1
            omega
          · exact hInv.topN
          · show s.bottom + 1 ≤ s.top + 1
            omega
          · show s.p_tail + pAt pmf s.bottom +
                wsum (pAt pmf) (intRange (s.bottom + 1) s.top) = totalMass pmf
            have htail := hInv.tail
            rw [hInv.pos_eq, intRange_cons hbt, wsum_cons] at htail
            linarith
        · show (intRange (s.bottom + 1) s.top).length < s.posout.length
          rw [hInv.pos_eq, intRange_length, intRange_length]
          omega
        · show pAt pmf s.bottom = wsum (pAt pmf) [s.bottom]
          simp [wsum]
        · rfl

/-- Main loop correctness under the invariant: with enough fuel and
`alpha ≤ totalMass`, the loop exits normally, preserves the invariant, runs at
most `length posout` iterations, and (unless it ran zero iterations) leaves
`p_J` equal to the mass of the final boundary set `J`. -/
theorem fisherLoop_inv {pmf : List ℚ} {alpha : ℚ} (halpha : alpha ≤ totalMass pmf) :
    ∀ (fuel : ℕ) (s : FState) (c : ℕ), LoopInv pmf s → s.posout.length < fuel →
      ∃ s2 c2, fisherLoop pmf alpha fuel s c = Except.ok (s2, c2) ∧ LoopInv pmf s2 ∧
        c2 ≤ c + s.posout.length ∧ (s2 = s ∨ s2.p_J = wsum (pAt pmf) s2.J)
  | 0, s, c => by omega
  | fuel + 1, s, c => by
    intro hInv hfuel
    by_cases hc : s.p_tail < alpha
    · have hne : s.posout ≠ [] := by
        intro hempty
        have := hInv.tail
        rw [hempty, wsum_nil, add_zero] at this
        rw [this] at hc
        exact absurd halpha (not_le.mpr hc)
      obtain ⟨s1, hstep, hInv1, hlen, hpJ, hpt⟩ := fisherStep_inv hInv hne
      have hrec := fisherLoop_inv halpha fuel s1 (c + 1) hInv1 (by omega)
      obtain ⟨s2, c2, hrun, hInv2, hcount, hlast⟩ := hrec
      refine ⟨s2, c2, ?_, hInv2, by omega, Or.inr ?_⟩
      · rw [fisherLoop, if_pos hc, hstep]
        exact hrun
      · rcases hlast with rfl | h2
        · exact hpJ
        · exact h2
    · exact ⟨s, c, fisherLoop_exit hc, hInv, by omega, Or.inl rfl⟩

/-! ### The total mass of the hypergeometric pmf is 1 (Vandermonde) -/

theorem list_range_map_sum (g : ℕ → ℚ) (m : ℕ) :
    ((List.range m).map g).sum = ∑ k ∈ Finset.range m, g k := by
  induction m with
  | zero => simp
  | succ m ih =>
    rw [List.range_succ, List.map_append, List.sum_append, Finset.sum_range_succ, ih]
    simp

theorem pAt_pmfList {N G n : ℕ} (k : ℕ) (hk : k < n + 1) :
    pAt (pmfList N G n) (k : ℤ) = hypergeom_pmf N G n k := by
  unfold pAt pmfList
  have ht : ((k : ℤ)).toNat = k := by omega
  rw [ht]
  have hlen : k < ((List.range (n + 1)).map (hypergeom_pmf N G n)).length := by
    simpa using hk
  rw [List.getD_eq_getElem _ _ hlen]
  simp

theorem totalMass_pmfList {N G n : ℕ} (hG : G ≤ N) (hn : n ≤ N) :
    totalMass (pmfList N G n) = 1 := by
  unfold totalMass
  have hlen : (pmfList N G n).length = n + 1 := by simp [pmfList]
  rw [hlen]
  have h1 : ((n + 1 : ℕ) : ℤ) - 1 = (n : ℤ) := by omega
  rw [h1, ← initState_posout]
  unfold wsum
  rw [List.map_map, list_range_map_sum]
  have hsum : ∀ k ∈ Finset.range (n + 1),
      (pAt (pmfList N G n) ∘ Int.ofNat) k = hypergeom_pmf N G n k := by
    intro k hk
    exact pAt_pmfList k (Finset.mem_range.mp hk)
  rw [Finset.sum_congr rfl hsum]
  unfold hypergeom_pmf
  rw [← Finset.sum_div]
  have hvan : ∑ k ∈ Finset.range (n + 1),
      ((Nat.choose G k : ℚ) * (Nat.choose (N - G) (n - k) : ℚ)) = (Nat.choose N n : ℚ) := by
    have h2 := Nat.add_choose_eq G (N - G) n
    rw [Nat.add_sub_cancel' hG] at h2
    rw [Finset.Nat.sum_antidiagonal_eq_sum_range_succ
      (fun i j => Nat.choose G i * Nat.choose (N - G) j) n] at h2
    exact_mod_cast h2.symm
  rw [hvan]
  apply div_self
  exact_mod_cast (Nat.choose_pos hn).ne'

/-! ### Packaged behaviour of `fisherRun` on valid inputs -/

theorem fisherRun_valid {N G n : ℕ} {alpha : ℚ} (hG : G ≤ N) (hn : n ≤ N)
    (h0 : 0 < alpha) (h1 : alpha < 1) :
    ∃ s c, fisherRun N G n alpha = Except.ok (s, c) ∧ LoopInv (pmfList N G n) s ∧
      c ≤ n + 1 ∧ s.p_J = wsum (pAt (pmfList N G n)) s.J ∧
      alpha ≤ s.p_tail ∧ s.p_tail - s.p_J < alpha := by
  have htot := totalMass_pmfList hG hn
  have halpha : alpha ≤ totalMass (pmfList N G n) := by
    rw [htot]
    exact le_of_lt h1
  have hlen0 : (initState n).posout.length = n + 1 := by simp [initState]
  obtain ⟨s, c, hrun, hInv, hc, hlast⟩ :=
    fisherLoop_inv halpha (n + 2) (initState n) 0 (initState_inv N G n)
      (by rw [hlen0]; omega)
  have hcases := fisherLoop_ok_cases (n + 2) (initState n) 0 hrun
  have hptail : ¬s.p_tail < alpha := hcases.1
  have hlastJ : s.p_J = wsum (pAt (pmfList N G n)) s.J := by
    rcases hlast with rfl | h
    · exact absurd (show (initState n).p_tail < alpha by simpa [initState] using h0) hptail
    · exact h
  have hexcess : s.p_tail - s.p_J < alpha := by
    rcases hcases.2 with ⟨rfl, _⟩ | h
    · exact absurd (show (initState n).p_tail < alpha by simpa [initState] using h0) hptail
    · exact h
  have hcount : c ≤ n + 1 := by
    rw [hlen0] at hc
    omega
  exact ⟨s, c, hrun, hInv, hcount, hlastJ, not_lt.mp hptail, hexcess⟩

/-! ## Embedding of `chisq.py` -/

/-- `np.unique(z)`: the sorted list of the distinct values of `z`
(used by `chisq_1` and `chisq_2`).  A sorted duplicate-free list is uniquely
determined by its members, so any sorting of the distinct values is the
faithful model of `np.unique`. -/
def uSorted (z : List ℤ) : List ℤ := List.insertionSort (fun a b => a ≤ b) z.dedup

/-- The expected count `E_k = n * p` with `p = z.count(v)/(m+n)`,
`n = len(x)`, `m = len(y)`, `z = x + y`, as computed by `chisq_1` and
`chisq_3`. -/
def Ek (x y : List ℤ) (v : ℤ) : ℚ :=
  (x.length : ℚ) * (((x ++ y).count v : ℚ) / ((y.length + x.length : ℕ) : ℚ))

/-- One summand `(O_k - E_k)^2 / E_k` of the chi-square statistic, with
`O_k = x.count(v)`. -/
def chiTerm (x y : List ℤ) (v : ℤ) : ℚ :=
  ((x.count v : ℚ) - Ek x y v) ^ 2 / Ek x y v

/-- `chisq_1(x, y)` of `chisq.py`: frequency table over `np.unique(x + y)`,
then `sum((O_k - E_k)**2 / E_k)`; a zero expected count raises
`ZeroDivisionError` (Python float division). -/
def chisq_1 (x y : List ℤ) : Except PyErr ℚ :=
  match (uSorted (x ++ y)).mapM (fun v =>
      if Ek x y v = 0 then Except.error PyErr.zeroDivisionError
      else Except.ok (chiTerm x y v)) with
  | Except.error e => Except.error e
  | Except.ok terms => Except.ok terms.sum

/-- `chisq_2(x, y)` of `chisq.py`: same table via
`np.unique(..., return_counts=True)`, summed with `np.nansum`.  A zero
expected count can occur only when `x` is empty, in which case the observed
count is also zero and numpy produces `0/0 = NaN`, which `nansum` drops;
that summand is therefore modelled as `0`. -/
def chisq_2 (x y : List ℤ) : ℚ :=
  ((uSorted (x ++ y)).map (fun v =>
    let E : ℚ := (x.length : ℚ) * (((x ++ y).count v : ℚ) / ((x.length + y.length : ℕ) : ℚ))
    if E = 0 then 0 else ((x.count v : ℚ) - E) ^ 2 / E)).sum

/-- The pure-Python unique of `chisq_3`: fold over `z` keeping first
occurrences, starting from the accumulator `acc`. -/
def uniqAcc (z : List ℤ) (acc : List ℤ) : List ℤ :=
  z.foldl (fun acc2 i => if i ∈ acc2 then acc2 else acc2 ++ [i]) acc

/-- `chisq_3(x, y)` of `chisq.py`: builds `u = [z[0]]` (raising `IndexError`
on an empty pooled sample) and extends it by first occurrences, then computes
the same sum with explicit loops. -/
def chisq_3 (x y : List ℤ) : Except PyErr ℚ :=
  match x ++ y with
  | [] => Except.error PyErr.indexError
  | z0 :: _ =>
    match (uniqAcc (x ++ y) [z0]).mapM (fun v =>
        if Ek x y v = 0 then Except.error PyErr.zeroDivisionError
        else Except.ok (chiTerm x y v)) with
    | Except.error e => Except.error e
    | Except.ok terms => Except.ok terms.sum

/-! ### Lemmas about the chi-square embeddings -/

theorem uSorted_nodup (z : List ℤ) : (uSorted z).Nodup :=
  ((List.perm_insertionSort _ z.dedup).nodup_iff).mpr (List.nodup_dedup z)

theorem uSorted_mem {w : ℤ} {z : List ℤ} : w ∈ uSorted z ↔ w ∈ z := by
  unfold uSorted
  rw [(List.perm_insertionSort _ z.dedup).mem_iff, List.mem_dedup]

theorem uniqAcc_mem {z : List ℤ} : ∀ {acc : List ℤ} {w : ℤ},
    w ∈ uniqAcc z acc ↔ w ∈ acc ∨ w ∈ z := by
  induction z with
  | nil => simp [uniqAcc]
  | cons a rest ih =>
    intro acc w
    unfold uniqAcc
    simp only [List.foldl_cons]
    by_cases ha : a ∈ acc
    · rw [if_pos ha]
      rw [show List.foldl _ acc rest = uniqAcc rest acc from rfl, ih, List.mem_cons]
      constructor
      · rintro (h | h)
        · exact Or.inl h
        · exact Or.inr (Or.inr h)
      · rintro (h | rfl | h)
        · exact Or.inl h
        · exact Or.inl ha
        · exact Or.inr h
    · rw [if_neg ha]
      rw [show List.foldl _ (acc ++ [a]) rest = uniqAcc rest (acc ++ [a]) from rfl, ih,
        List.mem_cons, List.mem_append, List.mem_singleton]
      tauto

theorem uniqAcc_nodup {z : List ℤ} : ∀ {acc : List ℤ}, acc.Nodup → (uniqAcc z acc).Nodup := by
  induction z with
  | nil => exact fun h => h
  | cons a rest ih =>
    intro acc h
    unfold uniqAcc
    simp only [List.foldl_cons]
    by_cases ha : a ∈ acc
    · rw [if_pos ha]
      exact ih h
    · rw [if_neg ha]
      refine ih ?_
      rw [List.nodup_append]
      refine ⟨h, List.nodup_singleton a, ?_⟩
      intro w hw hwa
      rw [List.mem_singleton] at hwa
      exact ha (hwa ▸ hw)

theorem Ek_pos {x y : List ℤ} {v : ℤ} (hx : x ≠ []) (hv : v ∈ x ++ y) :
    0 < Ek x y v := by
  unfold Ek
  have hxlen : 0 < x.length := List.length_pos.mpr hx
  have hcount : 0 < (x ++ y).count v := List.count_pos_iff.mpr hv
  apply mul_pos
  · exact_mod_cast hxlen
  · apply div_pos
    · exact_mod_cast hcount
    · have h2 : 0 < y.length + x.length := by omega
      exact_mod_cast h2

theorem mapM_ok_of_ne_zero {x y : List ℤ} : ∀ (u : List ℤ),
    (∀ v ∈ u, Ek x y v ≠ 0) →
    (u.mapM (fun v => if Ek x y v = 0 then Except.error PyErr.zeroDivisionError
        else Except.ok (chiTerm x y v)) : Except PyErr (List ℚ)) =
      Except.ok (u.map (chiTerm x y)) := by
  intro u
  induction u with
  | nil => intro _; rfl
  | cons a rest ih =>
    intro h
    rw [List.mapM_cons, if_neg (h a (List.mem_cons_self a rest)),
      ih (fun v hv => h v (List.mem_cons_of_mem a hv))]
    rfl

theorem mapM_cons_error {x y : List ℤ} {a : ℤ} {rest : List ℤ} (h : Ek x y a = 0) :
    ((a :: rest).mapM (fun v => if Ek x y v = 0 then Except.error PyErr.zeroDivisionError
        else Except.ok (chiTerm x y v)) : Except PyErr (List ℚ)) =
      Except.error PyErr.zeroDivisionError := by
  rw [List.mapM_cons, if_pos h]
  rfl

theorem chisq_1_eq {x y : List ℤ} (hx : x ≠ []) :
    chisq_1 x y = Except.ok (((uSorted (x ++ y)).map (chiTerm x y)).sum) := by
  unfold chisq_1
  rw [mapM_ok_of_ne_zero _ (fun v hv => (Ek_pos hx (uSorted_mem.mp hv)).ne')]

theorem chisq_3_canonical {x y : List ℤ} (hx : x ≠ []) :
    ∃ u : List ℤ, u.Nodup ∧ (∀ w, w ∈ u ↔ w ∈ x ++ y) ∧
      chisq_3 x y = Except.ok ((u.map (chiTerm x y)).sum) := by
  cases x with
  | nil => exact absurd rfl hx
  | cons x0 xt =>
    refine ⟨uniqAcc ((x0 :: xt) ++ y) [x0], uniqAcc_nodup (List.nodup_singleton x0),
      ?_, ?_⟩
    · intro w
      rw [uniqAcc_mem, List.mem_singleton]
      constructor
      · rintro (rfl | h)
        · exact List.mem_append_left _ (List.mem_cons_self _ _)
        · exact h
      · exact fun h => Or.inr h
    · unfold chisq_3
      simp only [List.cons_append]
      rw [mapM_ok_of_ne_zero]
      intro v hv
      rcases uniqAcc_mem.mp hv with h | h
      · rw [List.mem_singleton] at h
        subst h
        exact (Ek_pos (by simp) (List.mem_append_left _ (List.mem_cons_self _ _))).ne'
      · refine (Ek_pos (by simp) ?_).ne'
        rw [← List.cons_append] at h
        exact h

theorem chisq_1_nil_error {y : List ℤ} (hy : y ≠ []) :
    chisq_1 [] y = Except.error PyErr.zeroDivisionError := by
  obtain ⟨a, rest, hu⟩ : ∃ a rest, uSorted (([] : List ℤ) ++ y) = a :: rest := by
    cases hcase : uSorted (([] : List ℤ) ++ y) with
    | nil =>
      exfalso
      obtain ⟨b, hb⟩ := List.exists_mem_of_ne_nil y hy
      have hbu : b ∈ uSorted (([] : List ℤ) ++ y) := uSorted_mem.mpr (by simpa using hb)
      rw [hcase] at hbu
      cases hbu
    | cons a rest => exact ⟨a, rest, rfl⟩
  unfold chisq_1
  rw [hu, mapM_cons_error (by simp [Ek])]

/-! ## The claims -/

/-- C1 (confirmed): each iteration of the removal loop selects the boundary
set `J` by the exact tie-break policy of `fisher.py` lines 56-73: if
`pb < pt` then `J = [bottom]`, `p_J = pb` and `bottom` advances by 1; if
`pb > pt` then `J = [top]`, `p_J = pt` and `top` retreats by 1; if `pb = pt`
and `bottom < top` then `J = [bottom, top]`, `p_J = pb + pt` and both
endpoints move inward simultaneously; if `pb = pt` and `bottom = top` then
`J = [bottom]`, `p_J = pb` and `bottom` advances. -/
theorem claim1_tie_break_policy (pmf : List ℚ) (s s2 : FState) (pb pt : ℚ)
    (hb : npGet pmf s.bottom = Except.ok pb)
    (ht : npGet pmf s.top = Except.ok pt)
    (hstep : fisherStep pmf s = Except.ok s2) :
    (pb < pt → s2.J = [s.bottom] ∧ s2.p_J = pb ∧
      s2.bottom = s.bottom + 1 ∧ s2.top = s.top) ∧
    (pt < pb → s2.J = [s.top] ∧ s2.p_J = pt ∧
      s2.top = s.top - 1 ∧ s2.bottom = s.bottom) ∧
    (pb = pt → s.bottom < s.top → s2.J = [s.bottom, s.top] ∧ s2.p_J = pb + pt ∧
      s2.bottom = s.bottom + 1 ∧ s2.top = s.top - 1) ∧
    (pb = pt → s.bottom = s.top → s2.J = [s.bottom] ∧ s2.p_J = pb ∧
      s2.bottom = s.bottom + 1 ∧ s2.top = s.top) := by
  obtain ⟨pb2, pt2, hb2, ht2, hc⟩ := fisherStep_cases hstep
  rw [hb] at hb2
  rw [ht] at ht2
  injection hb2 with hbe
  injection ht2 with hte
  subst hbe
  subst hte
  refine ⟨?_, ?_, ?_, ?_⟩
  · intro h1
    rcases hc with ⟨_, _, hbot, htop, hJ, hpJ, _⟩ | ⟨h2, _⟩ | ⟨h2, _⟩ | ⟨h2, _⟩
    · exact ⟨hJ, hpJ, hbot, htop⟩
    · exact ((lt_asymm h1) h2).elim
    · rw [h2] at h1
      exact (lt_irrefl pt h1).elim
    · rw [h2] at h1
      exact (lt_irrefl pt h1).elim
  · intro h1
    rcases hc with ⟨h2, _⟩ | ⟨_, _, hbot, htop, hJ, hpJ, _⟩ | ⟨h2, _⟩ | ⟨h2, _⟩
    · exact ((lt_asymm h1) h2).elim
    · exact ⟨hJ, hpJ, htop, hbot⟩
    · rw [h2] at h1
      exact (lt_irrefl pt h1).elim
    · rw [h2] at h1
      exact (lt_irrefl pt h1).elim
  · intro h1 h2
    rcases hc with ⟨h3, _⟩ | ⟨h3, _⟩ | ⟨_, _, _, hbot, htop, hJ, hpJ, _⟩ | ⟨_, h3, _⟩
    · rw [h1] at h3
      exact (lt_irrefl pt h3).elim
    · rw [h1] at h3
      exact (lt_irrefl pt h3).elim
    · exact ⟨hJ, hpJ, hbot, htop⟩
    · exact absurd h2 h3
  · intro h1 h2
    rcases hc with ⟨h3, _⟩ | ⟨h3, _⟩ | ⟨_, h3, _⟩ | ⟨_, _, _, hbot, htop, hJ, hpJ, _⟩
    · rw [h1] at h3
      exact (lt_irrefl pt h3).elim
    · rw [h1] at h3
      exact (lt_irrefl pt h3).elim
    · rw [h2] at h3
      exact (lt_irrefl s.top h3).elim
    · exact ⟨hJ, hpJ, hbot, htop⟩

/-- Witness for C1 with the pmf vector [1/4, 3/4] and the initial state of
`n = 1` (`bottom = 0`, `top = 1`): here `pb = 1/4 < pt = 3/4`, so the first
case of the policy fires. -/
theorem claim1_witness :
    (FState.mk [1] 1 1 [0] ((1:ℚ)/4) ((1:ℚ)/4)).J = [0] ∧
    (FState.mk [1] 1 1 [0] ((1:ℚ)/4) ((1:ℚ)/4)).p_J = 1/4 ∧
    (FState.mk [1] 1 1 [0] ((1:ℚ)/4) ((1:ℚ)/4)).bottom = 0 + 1 ∧
    (FState.mk [1] 1 1 [0] ((1:ℚ)/4) ((1:ℚ)/4)).top = 1 :=
  (claim1_tie_break_policy [(1:ℚ)/4, 3/4]
    ⟨[0, 1], 0, 1, [], 0, 0⟩ ⟨[1], 1, 1, [0], 1/4, 1/4⟩ (1/4) (3/4)
    (by decide) (by decide) (by decide)).1 (by decide)

/-- C2 counterexample: at (N, G, n, alpha) = (10, 2, 5, 1/20) the code
returns I = [1], J = [0, 2], gamma = 71/80, and the claimed identity
sum over I plus (1 - gamma) times the mass of J equals 1 - alpha is false:
the left side is 5/9 + (9/80)(4/9) = 109/180, the right side 19/20. -/
theorem claim2_counterexample :
    fisher_accept 10 2 5 (1/20) = Except.ok ([1], [0, 2], 71/80) ∧
    ¬(wsum (pAt (pmfList 10 2 5)) [1] +
        (1 - 71/80) * wsum (pAt (pmfList 10 2 5)) [0, 2] = 1 - 1/20) := by
  decide

/-- C2 (corrected): the returned gamma is the probability of ACCEPTING on J
(docstring of `fisher_accept`, line 41), not of rejecting, so the exact-level
identity satisfied by the code is sum over I of the point masses plus
gamma times the mass of J equals 1 - alpha. -/
theorem claim2_exact_level (N G n : ℕ) (alpha : ℚ) (I J : List ℤ) (gamma : ℚ)
    (hG : G ≤ N) (hn : n ≤ N) (h0 : 0 < alpha) (h1 : alpha < 1)
    (hacc : fisher_accept N G n alpha = Except.ok (I, J, gamma)) :
    wsum (pAt (pmfList N G n)) I + gamma * wsum (pAt (pmfList N G n)) J
      = 1 - alpha := by
  obtain ⟨s, c, hr, hInv, hc, hpJ, hge, hlt⟩ := fisherRun_valid hG hn h0 h1
  unfold fisher_accept at hacc
  rw [hr] at hacc
  dsimp only at hacc
  by_cases hz : s.p_J = 0
  · rw [if_pos hz] at hacc
    cases hacc
  · rw [if_neg hz] at hacc
    injection hacc with he
    injection he with hI hrest
    injection hrest with hJ hg
    subst hI
    subst hJ
    subst hg
    rw [← hpJ, div_mul_cancel₀ _ hz]
    have htail := hInv.tail
    rw [totalMass_pmfList hG hn] at htail
    linarith

/-- Witness for the amended C2 at (10, 2, 5, 1/20):
5/9 + (71/80)(4/9) = 19/20 = 1 - 1/20. -/
theorem claim2_witness :
    wsum (pAt (pmfList 10 2 5)) [1] +
      (71/80) * wsum (pAt (pmfList 10 2 5)) [0, 2] = 1 - 1/20 :=
  claim2_exact_level 10 2 5 (1/20) [1] [0, 2] (71/80)
    (by decide) (by decide) (by decide) (by decide) (by decide)

/-- C3 counterexample: in exact arithmetic the run at (10, 2, 5, 1/20)
returns gamma = 71/80 = 0.8875 exactly, which is not the claimed decimal
0.8875000000000001 (that literal is the IEEE-754 double artifact of 0.8875
produced by the floating-point evaluation). -/
theorem claim3_counterexample :
    fisher_accept 10 2 5 (1/20) = Except.ok ([1], [0, 2], 71/80) ∧
    (71/80 : ℚ) ≠ 8875000000000001/10000000000000000 := by
  decide

/-- C3 (corrected): `fisher_accept(10, 2, 5, 0.05)` returns exactly
I = [1], J = [0, 2] and gamma = 0.8875 = 71/80 in exact arithmetic. -/
theorem claim3_concrete_run :
    fisher_accept 10 2 5 (1/20) = Except.ok ([1], [0, 2], 71/80) := by
  decide

/-- C4 counterexample: the input (N, G, n, alpha) = (10, 10, 5, 1/20)
satisfies all the spec preconditions (n ≤ N, G ≤ N, 0 < alpha < 1), yet
`fisher_accept2` raises AssertionError because the code checks the strict
inequality N > G. -/
theorem claim4_counterexample :
    (10 ≤ 10 ∧ 5 ≤ 10 ∧ (0:ℚ) < 1/20 ∧ (1:ℚ)/20 < 1) ∧
    fisher_accept2 10 10 5 (1/20) = Except.error PyErr.assertionError := by
  decide

/-- C4 (corrected): the only validation in the code is the pair of asserts
`N > n` and `N > G` of `fisher_accept2` (checked before any computation and
raising AssertionError); `fisher_accept` itself validates nothing, and
neither function checks non-negativity or `0 < alpha < 1`.  In particular
G = 11, N = 10 raises AssertionError, but so do the spec-allowed inputs with
G = N or n = N. -/
theorem claim4_validation (N G n : ℕ) (alpha : ℚ) :
    fisher_accept2 N G n alpha =
      if n < N ∧ G < N then fisher_accept N G n alpha
      else Except.error PyErr.assertionError := by
  unfold fisher_accept2 fisher_accept
  by_cases h1 : n < N
  · by_cases h2 : G < N
    · rw [if_pos h1, if_pos h2, if_pos ⟨h1, h2⟩]
    · rw [if_pos h1, if_neg h2, if_neg (fun hc => h2 hc.2)]
  · rw [if_neg h1, if_neg (fun hc => h1 hc.1)]

/-- C5 (confirmed): on every valid input the removal loop terminates
normally, after at most n + 1 iterations. -/
theorem claim5_termination {N G n : ℕ} {alpha : ℚ}
    (hG : G ≤ N) (hn : n ≤ N) (h0 : 0 < alpha) (h1 : alpha < 1) :
    ∃ s c, fisherRun N G n alpha = Except.ok (s, c) ∧ c ≤ n + 1 := by
  obtain ⟨s, c, hr, _, hc, _⟩ := fisherRun_valid hG hn h0 h1
  exact ⟨s, c, hr, hc⟩

/-- Witness for C5 at (10, 2, 5, 1/20): the loop exits after 4 ≤ 6
iterations. -/
theorem claim5_witness :
    ∃ s c, fisherRun 10 2 5 (1/20) = Except.ok (s, c) ∧ c ≤ 5 + 1 :=
  claim5_termination (by decide) (by decide) (by decide) (by decide)

/-- C6 (confirmed): for fixed (N, G, n) and significance levels
alpha1 < alpha2 on which `fisher_accept` succeeds, the acceptance set for
alpha2 is a subset of the acceptance set for alpha1: decreasing alpha can
only grow I, never shrink it. -/
theorem claim6_monotonicity (N G n : ℕ) (a1 a2 : ℚ)
    (I1 J1 : List ℤ) (g1 : ℚ) (I2 J2 : List ℤ) (g2 : ℚ)
    (h12 : a1 < a2)
    (h1 : fisher_accept N G n a1 = Except.ok (I1, J1, g1))
    (h2 : fisher_accept N G n a2 = Except.ok (I2, J2, g2)) :
    I2 ⊆ I1 := by
  unfold fisher_accept at h1 h2
  cases hr1 : fisherRun N G n a1 with
  | error e =>
    rw [hr1] at h1
    cases h1
  | ok p1 =>
    rw [hr1] at h1
    cases hr2 : fisherRun N G n a2 with
    | error e =>
      rw [hr2] at h2
      cases h2
    | ok p2 =>
      rw [hr2] at h2
      obtain ⟨s1, c1⟩ := p1
      obtain ⟨s2, c2⟩ := p2
      dsimp only at h1 h2
      by_cases hz1 : s1.p_J = 0
      · rw [if_pos hz1] at h1
        cases h1
      · rw [if_neg hz1] at h1
        injection h1 with he1
        injection he1 with hI1 hrest1
        by_cases hz2 : s2.p_J = 0
        · rw [if_pos hz2] at h2
          cases h2
        · rw [if_neg hz2] at h2
          injection h2 with he2
          injection he2 with hI2 hrest2
          subst hI1
          subst hI2
          exact fisherLoop_mono (le_of_lt h12) (n + 2) (initState n) 0 0 hr1 hr2

/-- Witness for C6: alpha1 = 1/20 returns I = [1] while alpha2 = 1/2 returns
I = []; indeed [] ⊆ [1]. -/
theorem claim6_witness : ([] : List ℤ) ⊆ [1] :=
  claim6_monotonicity 10 2 5 (1/20) (1/2) [1] [0, 2] (71/80) [] [1] (9/10)
    (by decide) (by decide) (by decide)

/-- C7 (code_bug): at (10, 2, 5, alpha = 3/2) the removal exhausts the whole
outcome space with p_tail = 1 still below alpha, and the next iteration
crashes inside `posout.remove` with an uncontrolled ValueError; the code
signals no ConstructionError (no such guard exists in `fisher.py`). -/
theorem claim7_exhaustion_crash :
    fisher_accept 10 2 5 (3/2) = Except.error PyErr.valueError := by
  decide

/-- C8 counterexample to the claim as stated: at alpha = -1 the loop runs
zero iterations, `p_J` is 0 at the division point, and the code raises
ZeroDivisionError — it does not signal a NumericError (no such error exists
in `fisher.py`). -/
theorem claim8_counterexample :
    fisherRun 10 2 5 (-1) = Except.ok (initState 5, 0) ∧
    (initState 5).p_J = 0 ∧
    fisher_accept 10 2 5 (-1) = Except.error PyErr.zeroDivisionError := by
  decide

/-- C8 (corrected): a loop iteration that selects `p_J = 0` leaves `p_tail`
unchanged and therefore cannot be the final iteration, so whenever the loop
exits with `0 < alpha` the selected boundary mass is strictly positive and
the division for gamma is well defined (first conjunct).  The division point
sees `p_J = 0` only when the loop ran zero iterations (`alpha ≤ 0`), and the
code then raises ZeroDivisionError instead of signaling a NumericError
(second conjunct). -/
theorem claim8_no_zero_division :
    (∀ (N G n : ℕ) (alpha : ℚ) (s : FState) (c : ℕ),
      fisherRun N G n alpha = Except.ok (s, c) → 0 < alpha → 0 < s.p_J) ∧
    (∀ (N G n : ℕ) (alpha : ℚ) (s : FState) (c : ℕ),
      fisherRun N G n alpha = Except.ok (s, c) → s.p_J = 0 →
        fisher_accept N G n alpha = Except.error PyErr.zeroDivisionError) := by
  constructor
  · intro N G n alpha s c hr h0
    have hcases := fisherLoop_ok_cases (n + 2) (initState n) 0 hr
    rcases hcases.2 with ⟨rfl, _⟩ | hex
    · exact absurd (show (initState n).p_tail < alpha by simpa [initState] using h0)
        hcases.1
    · have hle := not_lt.mp hcases.1
      linarith
  · intro N G n alpha s c hr hz
    unfold fisher_accept
    rw [hr]
    dsimp only
    rw [if_pos hz]

/-- Witness for C8: the valid run (10, 2, 5, 1/20) exits with
`p_J = 4/9 > 0`, and the degenerate run (10, 2, 5, -1) hits the
ZeroDivisionError branch. -/
theorem claim8_witness :
    0 < (FState.mk [1] 1 1 [0, 2] ((4:ℚ)/9) ((4:ℚ)/9)).p_J ∧
    fisher_accept 10 2 5 (-1) = Except.error PyErr.zeroDivisionError :=
  ⟨claim8_no_zero_division.1 10 2 5 (1/20) ⟨[1], 1, 1, [0, 2], 4/9, 4/9⟩ 4
      (by decide) (by decide),
    claim8_no_zero_division.2 10 2 5 (-1) (initState 5) 0 (by decide) (by decide)⟩

/-- C9 (confirmed): on every pair of samples on which `chisq_1` and
`chisq_3` are defined (`chisq_2` is total), all three chi-square
implementations return the same value. -/
theorem claim9_three_equal {x y : List ℤ} {a b : ℚ}
    (h1 : chisq_1 x y = Except.ok a) (h3 : chisq_3 x y = Except.ok b) :
    a = b ∧ chisq_2 x y = a := by
  have hx : x ≠ [] := by
    intro hxe
    subst hxe
    by_cases hy : y = ([] : List ℤ)
    · subst hy
      rw [show chisq_3 ([] : List ℤ) [] = Except.error PyErr.indexError from rfl] at h3
      cases h3
    · rw [chisq_1_nil_error hy] at h1
      cases h1
  obtain ⟨u3, hnod3, hmem3, heq3⟩ := chisq_3_canonical (y := y) hx
  rw [chisq_1_eq hx] at h1
  rw [heq3] at h3
  injection h1 with h1v
  injection h3 with h3v
  have hperm : u3.Perm (uSorted (x ++ y)) := by
    apply List.perm_of_nodup_nodup_toFinset_eq hnod3 (uSorted_nodup _)
    apply Finset.ext
    intro w
    rw [List.mem_toFinset, List.mem_toFinset, hmem3 w, uSorted_mem]
  constructor
  · rw [← h1v, ← h3v]
    exact ((hperm.map (chiTerm x y)).sum_eq).symm
  · rw [← h1v]
    unfold chisq_2
    refine congrArg _ ?_
    apply List.map_congr_left
    intro v hv
    have hEpos := Ek_pos hx (uSorted_mem.mp hv)
    have hEeq : (x.length : ℚ) *
        (((x ++ y).count v : ℚ) / ((x.length + y.length : ℕ) : ℚ)) = Ek x y v := by
      unfold Ek
      rw [Nat.add_comm x.length y.length]
    dsimp only
    rw [hEeq, if_neg hEpos.ne']
    rfl

/-- Witness for C9 at x = [0], y = []: all three implementations return 0. -/
theorem claim9_witness : (0:ℚ) = 0 ∧ chisq_2 [0] [] = 0 :=
  claim9_three_equal (x := [0]) (y := []) (a := 0) (b := 0)
    (by decide) (by decide)

/-- C10 (confirmed): for every nonempty sample `x`, every expected count
`E_k` over the pooled values is strictly positive, and consequently the
divisions inside `chisq_1` and `chisq_3` never divide by zero: both return a
value. -/
theorem claim10_expected_positive {x y : List ℤ} {v : ℤ}
    (hx : x ≠ []) (hv : v ∈ x ++ y) :
    0 < Ek x y v ∧ (∃ q1, chisq_1 x y = Except.ok q1) ∧
      (∃ q3, chisq_3 x y = Except.ok q3) := by
  refine ⟨Ek_pos hx hv, ⟨_, chisq_1_eq hx⟩, ?_⟩
  obtain ⟨u, hnod, hmem, he⟩ := chisq_3_canonical (y := y) hx
  exact ⟨_, he⟩

/-- Witness for C10 at x = [0], y = [], v = 0. -/
theorem claim10_witness :
    0 < Ek [0] [] 0 ∧ (∃ q1, chisq_1 [0] [] = Except.ok q1) ∧
      (∃ q3, chisq_3 [0] [] = Except.ok q3) :=
  claim10_expected_positive (by decide) (by decide)

end Spec2Proof
